/-
Verification of the masterdex card-identification core against its
natural-language specification.

The definitions below are a shallow embedding of the JavaScript functions in
src/src/App.jsx (Scanner component) and src/components/calculator/Calculator.jsx:
`findSlot`, `detectLanguageFromText`, `majorityVote`, `getNameMapForLang`,
`normalizeForMatching`, `levenshtein`, `bestSubstringDistance`,
`findBestPokemonMatch`, `detectPokemonWithLang` and `runFullScan`.

Modelling conventions:
- JS numbers that hold catalog ids are embedded as `Int` (all values in play
  are integers; the `Number.isInteger` guard of `findSlot` is therefore
  automatically satisfied in the embedding).
- Match scores: the only non-integer arithmetic in the source is
  `dist * 1.5`, which is exact in binary floating point for the magnitudes
  involved, so every score is an exact multiple of 1/2.  Scores are embedded
  as `Int` values counting HALF-units (a stored value `s` represents the JS
  score `s / 2`; `x ↦ 2 * x` is a strictly monotone exact bijection, so all
  score comparisons are preserved).  `scoreQ` maps a stored score back to the
  rational JS score for statements that quote source score values.
- JS strings are embedded as `String` / `List Char` (all characters involved
  are in the Basic Multilingual Plane, where JS `.length` and per-code-unit
  iteration agree with `List Char`).
- `Math.floor(a / b)` and `a % b` are embedded with `Int.ediv` / `Int.emod`;
  on the non-negative operands produced after `findSlot`'s range guard these
  agree with the JS operators.
- `String.prototype.toLowerCase` is modelled by `Char.toLower` (ASCII
  lowering); the texts exercised by the specification are ASCII or CJK, where
  the two agree.
- The OCR engine (`Tesseract.recognize`) is a black box in the spec; the
  pipeline is parameterised over an oracle `ocr : String → String → Nat →
  String` giving the text produced for (image url, language pack, pass index).
-/

import Mathlib

namespace Masterdex

/-! ## Basic character and string helpers -/

/-- The whitespace characters recognised by the embedding of the JS regex
class `\s` (the characters that actually occur in the repository's data). -/
def wsChars : List Char := [' ', '\t', '\n', '\r', '\x0b', '\x0c']

/-- Is `c` a whitespace character (JS `\s`)? -/
def isWs (c : Char) : Bool := wsChars.contains c

/-- JS `text.replace(/\s+/g, " ")`: collapse every maximal run of whitespace
to a single space. -/
def collapseWs (l : List Char) : List Char :=
  l.foldr
    (fun c acc =>
      if isWs c then (if acc.head? = some ' ' then acc else ' ' :: acc)
      else c :: acc)
    []

/-- JS `String.prototype.trim`: drop leading and trailing whitespace. -/
def trimList (l : List Char) : List Char :=
  ((l.dropWhile isWs).reverse.dropWhile isWs).reverse

/-- JS `t.includes(c)`: does `c` occur as a contiguous substring of `t`? -/
def includes (t c : List Char) : Bool :=
  (List.range (t.length - c.length + 1)).any
    (fun i => (t.drop i).take c.length == c)

/-! ## SlotPlacer: `findSlot` (src/src/App.jsx lines 72-100, duplicated in
Calculator.jsx) -/

def MAX_POKEMON : Int := 1025

def SLOTS_PER_BINDER : Int := 360

def SLOTS_PER_PAGE : Int := 9

/-- The placement record returned by `findSlot` on success. -/
structure Slot where
  binder : Int
  page : Int
  slotOnPage : Int
  slotInBinder : Int
deriving DecidableEq, Repr

/-- `findSlot(pokedexNumber)`: validate the range, then pure integer
arithmetic.  The JS error object `{ error: msg }` is embedded as
`Except.error msg`; the placement object as `Except.ok`. -/
def findSlot (pokedexNumber : Int) : Except String Slot :=
  if pokedexNumber < 1 ∨ pokedexNumber > MAX_POKEMON then
    Except.error "Pokédex number must be between 1 and 1025."
  else
    let zeroBasedIndex := pokedexNumber - 1
    let binderIndex := zeroBasedIndex.ediv SLOTS_PER_BINDER
    let binder := binderIndex + 1
    let positionInBinder := zeroBasedIndex.emod SLOTS_PER_BINDER
    let slotInBinder := positionInBinder + 1
    let pageIndex := positionInBinder.ediv SLOTS_PER_PAGE
    let page := pageIndex + 1
    let slotOnPage := positionInBinder.emod SLOTS_PER_PAGE + 1
    Except.ok ⟨binder, page, slotOnPage, slotInBinder⟩

/-! ## LanguageDetector: `detectLanguageFromText` (App.jsx lines 121-161) -/

/-- The configured French accent characters (`frChars` in the source). -/
def frChars : List Char := "éèàçêëïîôâùû".toList

/-- The configured German accent characters (`deChars` in the source). -/
def deChars : List Char := "äöüßÄÖÜ".toList

/-- Hiragana block U+3040-U+309F. -/
def isHiraChar (c : Char) : Bool := 0x3040 ≤ c.toNat && c.toNat ≤ 0x309f

/-- Katakana block U+30A0-U+30FF. -/
def isKataChar (c : Char) : Bool := 0x30a0 ≤ c.toNat && c.toNat ≤ 0x30ff

/-- Hiragana or Katakana. -/
def isKanaChar (c : Char) : Bool := isHiraChar c || isKataChar c

/-- Hangul syllable block U+AC00-U+D7AF. -/
def isHangulChar (c : Char) : Bool := 0xac00 ≤ c.toNat && c.toNat ≤ 0xd7af

/-- Configured French accent character. -/
def isFrChar (c : Char) : Bool := frChars.contains c

/-- Configured German accent character. -/
def isDeChar (c : Char) : Bool := deChars.contains c

/-- The four presence flags accumulated by the character scan of
`detectLanguageFromText`. -/
structure LangFlags where
  kana : Bool
  hangul : Bool
  fr : Bool
  de : Bool
deriving DecidableEq, Repr

/-- One iteration of the character loop of `detectLanguageFromText`: script
ranges are checked first and `continue` past the accent checks; a character in
none of the ranges is tested against both accent sets. -/
def scanStep (f : LangFlags) (ch : Char) : LangFlags :=
  if isHiraChar ch then { f with kana := true }
  else if isKataChar ch then { f with kana := true }
  else if isHangulChar ch then { f with hangul := true }
  else { f with fr := f.fr || isFrChar ch, de := f.de || isDeChar ch }

/-- `detectLanguageFromText(text)`: single scan over the characters, then a
fixed priority order ko, ja, fr, de, default en. -/
def detectLanguageFromText (text : String) : String :=
  if text = "" then "en"
  else
    let f := text.toList.foldl scanStep ⟨false, false, false, false⟩
    if f.hangul then "ko"
    else if f.kana then "ja"
    else if f.fr then "fr"
    else if f.de then "de"
    else "en"

/-! ## VotingAggregator: `majorityVote` (App.jsx lines 163-178) and the
`majorityVote(...) || "en"` composition used at both call sites -/

/-- One iteration of the counting loop shared by `majorityVote` and the
per-dex vote blocks: bump the count of `v` and take over the running best
when the new count strictly exceeds it. -/
def voteStep {K : Type} [DecidableEq K]
    (st : (K → Nat) × Option K × Nat) (v : K) : (K → Nat) × Option K × Nat :=
  let c := st.1 v + 1
  let counts := fun w => if w = v then c else st.1 w
  if st.2.2 < c then (counts, some v, c) else (counts, st.2.1, st.2.2)

/-- The counting loop run over a list of keys from the empty tally. -/
def voteCore {K : Type} [DecidableEq K] (keys : List K) :
    (K → Nat) × Option K × Nat :=
  keys.foldl voteStep ((fun _ => 0), none, 0)

/-- `majorityVote(values)`: falsy entries are skipped (`if (!v) return`); the
result is the running best value, `null` when nothing was counted. -/
def majorityVote (values : List String) : Option String :=
  (values.foldl (fun st v => if v = "" then st else voteStep st v)
    ((fun _ => 0), none, 0)).2.1

/-- The composition `majorityVote(samples) || "en"` used in
`detectLanguageWithVoting` and `runFullScan` (the spec's `voteLanguage`). -/
def voteLanguage (samples : List String) : String :=
  (majorityVote samples).getD "en"

/-! ## CatalogIndex: `getNameMapForLang` (App.jsx lines 180-184) -/

/-- The static per-language catalog data (`pokemon-names.json`), embedded as
an association list from language code to name table. -/
def NameData : Type := List (String × List (String × Int))

/-- `getNameMapForLang(langCode)`: the language's own table when it exists
and is non-empty, otherwise the English table (or an empty table). -/
def getNameMapForLang (data : NameData) (langCode : String) :
    List (String × Int) :=
  match List.lookup langCode data with
  | some map => if map.length > 0 then map else (List.lookup "en" data).getD []
  | none => (List.lookup "en" data).getD []

/-! ## NameMatcher: normalization, Levenshtein distance and
`findBestPokemonMatch` (App.jsx lines 197-303) -/

/-- `normalizeForMatching(text, langCode)`: CJK languages strip all
whitespace; the rest lowercase, collapse whitespace runs and trim. -/
def normalizeForMatching (text : String) (langCode : String) : List Char :=
  if text = "" then []
  else if langCode = "ja" ∨ langCode = "ko" then
    text.toList.filter (fun c => !isWs c)
  else
    trimList (collapseWs (text.toList.map Char.toLower))

/-- One row of the Levenshtein dynamic program: given the previous row
(`diag :: rest`, so that `diag = dp[i-1][j-1]` and `rest.head = dp[i-1][j]`)
and the cell to the left, produce the cells `dp[i][1..]`. -/
def levRow (ca : Char) : List Char → List Nat → Nat → List Nat
  | cb :: bs, diag :: rest@(up :: _), left =>
      let cost := if ca = cb then 0 else 1
      let cur := min (min (up + 1) (left + 1)) (diag + cost)
      cur :: levRow ca bs rest cur
  | _, _, _ => []

/-- Identity on lists of naturals, forcing each element to a literal; it only
exists to keep kernel evaluation of the dynamic program shallow and does not
change any value. -/
def forceRow : List Nat → List Nat
  | [] => []
  | n :: l =>
    match n with
    | 0 => 0 :: forceRow l
    | m + 1 => (m + 1) :: forceRow l

/-- `levenshtein(a, b)`: classic dynamic program; row `0` is `0..|b|`, row `i`
starts with `i`.  The early `a === b` / empty-string returns of the source are
kept. -/
def levenshtein (a b : List Char) : Nat :=
  if a = b then 0
  else if a = [] then b.length
  else if b = [] then a.length
  else
    let row0 := List.range (b.length + 1)
    let final := (a.foldl
      (fun (st : Nat × List Nat) ca =>
        let i := st.1 + 1
        (i, forceRow (i :: levRow ca b st.2 i)))
      (0, row0)).2
    final.getLastD 0

/-- `bestSubstringDistance(textNorm, candidateNorm)`: `none` embeds the JS
`Infinity`.  When the candidate is at least as long as the text the whole
text is compared; otherwise the minimum over all same-length windows is taken
(the source's `break` on distance 0 is a pure optimisation and does not
change the minimum). -/
def bestSubstringDistance (textNorm candidateNorm : List Char) : Option Nat :=
  if textNorm = [] then none
  else if candidateNorm = [] then none
  else if textNorm.length ≤ candidateNorm.length then
    some (levenshtein candidateNorm textNorm)
  else
    ((List.range (textNorm.length - candidateNorm.length + 1)).map
      (fun i => levenshtein candidateNorm
        ((textNorm.drop i).take candidateNorm.length))).foldl
      (fun acc d =>
        match acc with
        | none => some d
        | some m => some (min m d))
      none

/-- The length-scaled fuzzy tolerance
`candidateNorm.length <= 3 ? 1 : candidateNorm.length <= 6 ? 2 : 2`. -/
def maxAllowed (n : Nat) : Nat := if n ≤ 3 then 1 else if n ≤ 6 then 2 else 2

/-- The rational JS score represented by a stored half-unit score. -/
def scoreQ (s : Int) : Rat := (s : Rat) / 2

/-- The JS score `candidateNorm.length + 100` of an exact-substring hit, in
half-units. -/
def exactScore (len : Nat) : Int := 2 * ((len : Int) + 100)

/-- The JS score `candidateNorm.length - dist * 1.5` of an accepted fuzzy
hit, in half-units. -/
def fuzzyScore (len dist : Nat) : Int := 2 * (len : Int) - 3 * (dist : Int)

/-- A successful match: `{ name, dexNumber, score }`; `score` is stored in
half-units (see `scoreQ`). -/
structure PMatch where
  name : String
  dexNumber : Int
  score : Int
deriving DecidableEq, Repr

/-- The body of the `for (const [name, dex] of Object.entries(nameMap))` loop
of `findBestPokemonMatch`.  The running state packs the always-jointly-set
`bestName`/`bestDex` pair with `bestScore` (in half-units, starting at 0). -/
def matchStep (textNorm : List Char) (langCode : String)
    (st : Option (String × Int) × Int) (entry : String × Int) :
    Option (String × Int) × Int :=
  if entry.2 = 0 ∨ entry.2 < 1 ∨ entry.2 > MAX_POKEMON then st
  else
    let candidateNorm := normalizeForMatching entry.1 langCode
    if candidateNorm = [] then st
    else if includes textNorm candidateNorm then
      if exactScore candidateNorm.length > st.2 then
        (some (entry.1, entry.2), exactScore candidateNorm.length)
      else st
    else
      match bestSubstringDistance textNorm candidateNorm with
      | none => st
      | some dist =>
        if dist ≤ maxAllowed candidateNorm.length then
          if fuzzyScore candidateNorm.length dist > st.2 then
            (some (entry.1, entry.2), fuzzyScore candidateNorm.length dist)
          else st
        else st

/-- `findBestPokemonMatch(rawText, nameMap, langCode)`.  The `!rawText` guard
catches the empty string; an absent (`null`) name map cannot occur in the
embedding, where the table is a list. -/
def findBestPokemonMatch (rawText : String) (nameMap : List (String × Int))
    (langCode : String) : Option PMatch :=
  if rawText = "" then none
  else
    let textNorm := normalizeForMatching rawText langCode
    let best := nameMap.foldl (matchStep textNorm langCode) (none, 0)
    match best.1 with
    | none => none
    | some nd => some ⟨nd.1, nd.2, best.2⟩

/-- Instrumentation of `findBestPokemonMatch`'s control flow: how many table
entries the candidate loop iterates over.  The guard only skips the loop for
the empty raw text; otherwise every entry of the map is visited (the loop has
no `break`). -/
def findBestPokemonMatchScanCount (rawText : String)
    (nameMap : List (String × Int)) : Nat :=
  if rawText = "" then 0 else nameMap.length

/-! ## ScanPipeline: `detectLanguageWithVoting`, `detectPokemonWithLang` and
`runFullScan` (App.jsx lines 460-624).  The OCR engine is a black-box oracle
`ocr url langs passIndex`. -/

/-- `OCR_LANGS_MULTI`, the phase-1 multi-language pack string. -/
def OCR_LANGS_MULTI : String := "eng+jpn+kor+fra+deu"

/-- `LANG_CODE_TO_TESSERACT[langCode] || "eng"`. -/
def langCodeToTesseract (langCode : String) : String :=
  if langCode = "en" then "eng"
  else if langCode = "ja" then "jpn"
  else if langCode = "ko" then "kor"
  else if langCode = "fr" then "fra"
  else if langCode = "de" then "deu"
  else "eng"

/-- The majority-vote-by-`dexNumber` block of `detectPokemonWithLang` (App.jsx
lines 492-510): count occurrences of each dex, keep the first dex whose count
strictly exceeds the running best, then return the first match carrying the
winning dex (`matches.find(...) || null`).  `if (!bestDex)` treats dex `0` as
falsy. -/
def dexVote (matchList : List PMatch) : Option PMatch :=
  let st := matchList.foldl (fun st m => voteStep st m.dexNumber)
    ((fun _ => 0), none, 0)
  match st.2.1 with
  | none => none
  | some bestDex =>
    if bestDex = 0 then none
    else matchList.find? (fun m => m.dexNumber == bestDex)

/-- The same vote block as it appears in `runFullScan` (App.jsx lines
563-583), whose representative lookup is
`allMatches.find(...) || allMatches[0]`. -/
def dexVoteScan (matchList : List PMatch) : Option PMatch :=
  let st := matchList.foldl (fun st m => voteStep st m.dexNumber)
    ((fun _ => 0), none, 0)
  match st.2.1 with
  | none => none
  | some bestDex =>
    if bestDex = 0 then none
    else
      match matchList.find? (fun m => m.dexNumber == bestDex) with
      | some chosen => some chosen
      | none => matchList.head?

/-- `detectLanguageWithVoting(imageUrl)`: three multi-language OCR passes,
language detection on each, then `majorityVote(langVotes) || "en"`. -/
def detectLanguageWithVoting (ocr : String → String → Nat → String)
    (url : String) : String :=
  voteLanguage ((List.range 3).map
    (fun i => detectLanguageFromText (ocr url OCR_LANGS_MULTI i)))

/-- `detectPokemonWithLang(imageUrl, langCode)`: resolve the OCR pack and the
name table FROM THE GIVEN LANGUAGE, run three OCR passes, match each text,
majority-vote the matches by dex.  Also returns `lastText` (the last
non-empty OCR text). -/
def detectPokemonWithLang (ocr : String → String → Nat → String)
    (data : NameData) (url : String) (langCode : String) :
    Option PMatch × String :=
  let tesseractLang := langCodeToTesseract langCode
  let nameMap := getNameMapForLang data langCode
  let texts := (List.range 3).map (fun i => ocr url tesseractLang i)
  let matchList := texts.filterMap
    (fun t => findBestPokemonMatch t nameMap langCode)
  let lastText := texts.foldl (fun acc t => if t = "" then acc else t) ""
  (if matchList = [] then none else dexVote matchList, lastText)

/-- Phase 1 of `runFullScan`: the consensus language,
`majorityVote(frameLangs) || "en"`. -/
def consensusLang (ocr : String → String → Nat → String)
    (urls : List String) : String :=
  voteLanguage (urls.map (fun u => detectLanguageWithVoting ocr u))

/-- Phase 2 of `runFullScan` for a FIXED language: match every frame with
that language's table and vote the matches by dex. -/
def phase2Result (ocr : String → String → Nat → String) (data : NameData)
    (urls : List String) (langCode : String) : Option PMatch :=
  let allMatches := urls.filterMap
    (fun u => (detectPokemonWithLang ocr data u langCode).1)
  if allMatches = [] then none else dexVoteScan allMatches

/-- The pure core of `runFullScan(imageInput)`: `none` embeds the
"No image to scan" early error; otherwise the detected consensus language
paired with the identity-vote outcome (the `pendingMatch` the UI shows, or
`none` for the "couldn't read a name" messages). -/
def runFullScanCore (ocr : String → String → Nat → String) (data : NameData)
    (urls : List String) : Option (String × Option PMatch) :=
  if urls = [] then none
  else
    let frameLangs := urls.map (fun u => detectLanguageWithVoting ocr u)
    let langCode := voteLanguage frameLangs
    let allMatches := urls.filterMap
      (fun u => (detectPokemonWithLang ocr data u langCode).1)
    some (langCode, if allMatches = [] then none else dexVoteScan allMatches)

/-! ## Concrete scenario data used by the claim theorems -/

/-- An OCR oracle for the two-default-one-CJK scenario: on the phase-1
multi-language pack, frames `u1`/`u2` read ASCII text and frame `u3` reads
Katakana; every phase-2 single-language pass reads `pikachu`. -/
def scOcr : String → String → Nat → String := fun url langs _ =>
  if langs = OCR_LANGS_MULTI then
    (if url = "u3" then "ピカチュウ" else "pikachu") else "pikachu"

/-- Catalog data with an English and a Japanese table. -/
def scData : NameData :=
  [("en", [("pikachu", 25)]), ("ja", [("ピカチュウ", 25)])]

/-- Occurrence count of a key in a list (explicit recursion used by the
voting proofs). -/
def keyCount {K : Type} [DecidableEq K] (v : K) : List K → Nat
  | [] => 0
  | w :: l => (if w = v then 1 else 0) + keyCount v l

/-- The summed confidence of the matches carrying a given dex (only used to
state that the identity vote is NOT by summed confidence). -/
def sumScores (ms : List PMatch) (d : Int) : Int :=
  ((ms.filter (fun m => m.dexNumber == d)).map (fun m => m.score)).sum

/-- A 103-character candidate name. -/
def bigB : String := String.mk (List.replicate 103 'b')

/-- A 103-character raw text containing the one-character candidate "a" and
at Levenshtein distance 1 from `bigB`. -/
def bigText : String := String.mk ('a' :: List.replicate 102 'b')

/-- A table with a short exact-substring candidate (id 1) and a long fuzzy
candidate (id 2). -/
def bigTable : List (String × Int) := [("a", 1), (bigB, 2)]

/-! ## C1: `findSlot` round-trip law -/

/-- C1: for every id in [1, 1025], `findSlot` returns a placement (no error)
whose coordinates recover the zero-based index:
`(binder-1)*360 + (page-1)*9 + (slotOnPage-1) = id-1`, and
`slotInBinder = (page-1)*9 + slotOnPage`. -/
theorem findSlot_roundtrip (i : Int) (h1 : 1 ≤ i) (h2 : i ≤ 1025) :
    ∃ s : Slot, findSlot i = Except.ok s ∧
      (s.binder - 1) * 360 + (s.page - 1) * 9 + (s.slotOnPage - 1) = i - 1 ∧
      s.slotInBinder = (s.page - 1) * 9 + s.slotOnPage := by
  have hguard : ¬(i < 1 ∨ i > MAX_POKEMON) := by
    simp only [MAX_POKEMON]; omega
  have e1 : 360 * ((i - 1).ediv 360) + (i - 1).emod 360 = i - 1 :=
    Int.ediv_add_emod _ _
  have e2 : 9 * (((i - 1).emod 360).ediv 9) + ((i - 1).emod 360).emod 9 =
      (i - 1).emod 360 := Int.ediv_add_emod _ _
  refine ⟨⟨(i - 1).ediv SLOTS_PER_BINDER + 1,
          ((i - 1).emod SLOTS_PER_BINDER).ediv SLOTS_PER_PAGE + 1,
          ((i - 1).emod SLOTS_PER_BINDER).emod SLOTS_PER_PAGE + 1,
          (i - 1).emod SLOTS_PER_BINDER + 1⟩, ?_, ?_, ?_⟩
  · simp only [findSlot, if_neg hguard]
  · dsimp only [SLOTS_PER_BINDER, SLOTS_PER_PAGE]
    omega
  · dsimp only [SLOTS_PER_BINDER, SLOTS_PER_PAGE]
    omega

/-- Witness for C1 at the last valid id 1025. -/
theorem findSlot_roundtrip_witness :
    ∃ s : Slot, findSlot 1025 = Except.ok s ∧
      (s.binder - 1) * 360 + (s.page - 1) * 9 + (s.slotOnPage - 1) = 1025 - 1 ∧
      s.slotInBinder = (s.page - 1) * 9 + s.slotOnPage :=
  findSlot_roundtrip 1025 (by decide) (by decide)

/-! ## C2: `findSlot` range validation -/

/-- C2: ids 0, negative ids and 1026 are rejected with an error naming the
bounds 1 and 1025; no out-of-range id ever yields a placement (no clamping);
every id in [1, 1025] yields a placement. -/
theorem findSlot_range_check (i : Int) :
    ((i ≤ 0 ∨ i = 1026) →
      findSlot i = Except.error "Pokédex number must be between 1 and 1025.")
    ∧ ((i < 1 ∨ i > 1025) → ∀ s : Slot, findSlot i ≠ Except.ok s)
    ∧ (1 ≤ i → i ≤ 1025 → ∃ s : Slot, findSlot i = Except.ok s)
    ∧ includes ("Pokédex number must be between 1 and 1025.").toList
        ("1025").toList = true
    ∧ includes ("Pokédex number must be between 1 and 1025.").toList
        ("1").toList = true := by
  refine ⟨?_, ?_, ?_, by decide, by decide⟩
  · intro h
    have hguard : i < 1 ∨ i > MAX_POKEMON := by
      simp only [MAX_POKEMON]; omega
    simp only [findSlot, if_pos hguard]
  · intro h s
    have hguard : i < 1 ∨ i > MAX_POKEMON := by
      simp only [MAX_POKEMON]; omega
    simp only [findSlot, if_pos hguard]
    exact fun hcontra => Except.noConfusion hcontra
  · intro h1 h2
    have hguard : ¬(i < 1 ∨ i > MAX_POKEMON) := by
      simp only [MAX_POKEMON]; omega
    refine ⟨⟨(i - 1).ediv SLOTS_PER_BINDER + 1,
            ((i - 1).emod SLOTS_PER_BINDER).ediv SLOTS_PER_PAGE + 1,
            ((i - 1).emod SLOTS_PER_BINDER).emod SLOTS_PER_PAGE + 1,
            (i - 1).emod SLOTS_PER_BINDER + 1⟩, ?_⟩
    simp only [findSlot, if_neg hguard]

/-- Witness for C2 at 0, -5, 1026 and 1. -/
theorem findSlot_range_check_witness :
    findSlot 0 = Except.error "Pokédex number must be between 1 and 1025."
    ∧ findSlot (-5) =
        Except.error "Pokédex number must be between 1 and 1025."
    ∧ findSlot 1026 =
        Except.error "Pokédex number must be between 1 and 1025."
    ∧ ∃ s : Slot, findSlot 1 = Except.ok s :=
  ⟨(findSlot_range_check 0).1 (Or.inl (by decide)),
   (findSlot_range_check (-5)).1 (Or.inl (by decide)),
   (findSlot_range_check 1026).1 (Or.inr rfl),
   (findSlot_range_check 1).2.2.1 (by decide) (by decide)⟩

/-! ## C6: `detectLanguageFromText` classifies by fixed priority -/

/-- A Hiragana character is not a Hangul syllable. -/
theorem hira_not_hangul (c : Char) (h : isHiraChar c = true) :
    isHangulChar c = false := by
  simp only [isHiraChar, Bool.and_eq_true, decide_eq_true_eq] at h
  have hlt : ¬(0xac00 ≤ c.toNat) := by omega
  simp [isHangulChar, hlt]

/-- A Katakana character is not a Hangul syllable. -/
theorem kata_not_hangul (c : Char) (h : isKataChar c = true) :
    isHangulChar c = false := by
  simp only [isKataChar, Bool.and_eq_true, decide_eq_true_eq] at h
  have hlt : ¬(0xac00 ≤ c.toNat) := by omega
  simp [isHangulChar, hlt]

/-- The character scan accumulates exactly the presence of each class; a
character inside one of the script ranges is skipped (`continue`) before the
accent checks. -/
theorem scanStep_foldl (l : List Char) (f : LangFlags) :
    l.foldl scanStep f =
      ⟨f.kana || l.any isKanaChar,
       f.hangul || l.any isHangulChar,
       f.fr || l.any (fun c => isFrChar c && !(isKanaChar c || isHangulChar c)),
       f.de || l.any (fun c => isDeChar c && !(isKanaChar c || isHangulChar c))⟩ := by
  induction l generalizing f with
  | nil => simp
  | cons c rest ih =>
    rw [List.foldl_cons, ih]
    cases h1 : isHiraChar c with
    | true =>
      simp [scanStep, isKanaChar, h1, hira_not_hangul c h1, Bool.or_assoc]
    | false =>
      cases h2 : isKataChar c with
      | true =>
        simp [scanStep, isKanaChar, h1, h2, kata_not_hangul c h2, Bool.or_assoc]
      | false =>
        cases h3 : isHangulChar c with
        | true => simp [scanStep, isKanaChar, h1, h2, h3, Bool.or_assoc]
        | false => simp [scanStep, isKanaChar, h1, h2, h3, Bool.or_assoc]

/-- No configured French accent character lies in a CJK script range. -/
theorem frChars_not_script :
    ∀ c ∈ frChars, (isKanaChar c || isHangulChar c) = false := by decide

/-- No configured German accent character lies in a CJK script range. -/
theorem deChars_not_script :
    ∀ c ∈ deChars, (isKanaChar c || isHangulChar c) = false := by decide

/-- Two pointwise-equal predicates give the same `List.any`. -/
theorem any_pointwise {p q : Char → Bool} (h : ∀ c, p c = q c)
    (l : List Char) : l.any p = l.any q := by
  induction l with
  | nil => rfl
  | cons c rest ih => simp [List.any_cons, h c, ih]

/-- C6: `detectLanguageFromText` returns ko if any Hangul-syllable character
is present, otherwise ja if any Hiragana/Katakana character is present,
otherwise fr for a configured French accent, otherwise de for a configured
German accent, otherwise en (in particular for the empty string,
whitespace-only and pure ASCII text); scripts take precedence over accents. -/
theorem detectLanguageFromText_spec (text : String) :
    detectLanguageFromText text =
      (if text.toList.any isHangulChar then "ko"
       else if text.toList.any isKanaChar then "ja"
       else if text.toList.any isFrChar then "fr"
       else if text.toList.any isDeChar then "de"
       else "en") := by
  by_cases h : text = ""
  · subst h; decide
  · have hfr : ∀ c, (isFrChar c && !(isKanaChar c || isHangulChar c)) =
        isFrChar c := by
      intro c
      cases hc : isFrChar c with
      | true =>
        have hmem : c ∈ frChars := by
          have := hc
          simp only [isFrChar] at this
          exact List.mem_of_elem_eq_true this
        simp [frChars_not_script c hmem]
      | false => simp
    have hde : ∀ c, (isDeChar c && !(isKanaChar c || isHangulChar c)) =
        isDeChar c := by
      intro c
      cases hc : isDeChar c with
      | true =>
        have hmem : c ∈ deChars := by
          have := hc
          simp only [isDeChar] at this
          exact List.mem_of_elem_eq_true this
        simp [deChars_not_script c hmem]
      | false => simp
    unfold detectLanguageFromText
    rw [if_neg h, scanStep_foldl]
    simp only [Bool.false_or]
    rw [any_pointwise hfr, any_pointwise hde]

/-! ## C7: the language vote -/

/-- `keyCount` agrees with `List.count`. -/
theorem keyCount_eq_count {K : Type} [DecidableEq K] (v : K) (l : List K) :
    keyCount v l = l.count v := by
  induction l with
  | nil => rfl
  | cons w l ih =>
    by_cases h : w = v
    · subst h; simp [keyCount, List.count_cons, ih]; omega
    · simp [keyCount, List.count_cons, ih, h, Ne.symm h]

/-- A key with positive count is a member. -/
theorem keyCount_pos_mem {K : Type} [DecidableEq K] {v : K} {l : List K}
    (h : 1 ≤ keyCount v l) : v ∈ l := by
  induction l with
  | nil => simp [keyCount] at h
  | cons w l ih =>
    by_cases hw : w = v
    · exact hw ▸ List.mem_cons_self w l
    · simp only [keyCount, if_neg hw, Nat.zero_add] at h
      exact List.mem_cons_of_mem _ (ih h)

/-- Invariant of the shared counting loop: from a state whose counts are
dominated by the running best count and whose best value (if set) attains it,
the loop adds the processed keys to the counts, keeps every count dominated,
keeps the best value's count equal to the best count, only stays `none` on an
empty key list, and only produces winners that were already the best or occur
in the list. -/
theorem voteCore_go {K : Type} [DecidableEq K] :
    ∀ (keys : List K) (st : (K → Nat) × Option K × Nat),
    (∀ w, st.1 w ≤ st.2.2) →
    (∀ v, st.2.1 = some v → st.1 v = st.2.2) →
    (st.2.1 = none → st.2.2 = 0) →
    (∀ w, (keys.foldl voteStep st).1 w = st.1 w + keyCount w keys)
    ∧ (∀ w, (keys.foldl voteStep st).1 w ≤ (keys.foldl voteStep st).2.2)
    ∧ (∀ v, (keys.foldl voteStep st).2.1 = some v →
        (keys.foldl voteStep st).1 v = (keys.foldl voteStep st).2.2)
    ∧ ((keys.foldl voteStep st).2.1 = none → st.2.1 = none ∧ keys = [])
    ∧ (∀ v, (keys.foldl voteStep st).2.1 = some v →
        st.2.1 = some v ∨ v ∈ keys)
  | [], st, h1, h2, h3 => by
    refine ⟨fun w => by simp [keyCount], h1, h2, fun h => ⟨h, rfl⟩,
      fun v hv => Or.inl hv⟩
  | v0 :: rest, st, h1, h2, h3 => by
    rw [List.foldl_cons]
    by_cases hc : st.2.2 < st.1 v0 + 1
    · -- the running best is taken over by v0
      have hst : voteStep st v0 =
          ((fun w => if w = v0 then st.1 v0 + 1 else st.1 w),
            some v0, st.1 v0 + 1) := by
        simp only [voteStep, if_pos hc]
      have ih := voteCore_go rest (voteStep st v0)
        (by
          intro w
          rw [hst]
          dsimp only
          by_cases hw : w = v0
          · simp [hw]
          · rw [if_neg hw]
            exact le_trans (h1 w) (le_of_lt hc))
        (by
          intro v hv
          rw [hst] at hv ⊢
          dsimp only at hv ⊢
          simp only [Option.some.injEq] at hv
          subst hv
          simp)
        (by rw [hst]; intro h; simp at h)
      refine ⟨?_, ih.2.1, ih.2.2.1, ?_, ?_⟩
      · intro w
        rw [ih.1 w, hst, keyCount]
        dsimp only
        by_cases hw : w = v0
        · subst hw
          rw [if_pos rfl, if_pos rfl]
          omega
        · rw [if_neg hw, if_neg (Ne.symm hw)]
          omega
      · intro hnone
        rcases ih.2.2.2.1 hnone with ⟨hb, _⟩
        rw [hst] at hb
        simp at hb
      · intro v hv
        rcases ih.2.2.2.2 v hv with hb | hmem
        · rw [hst] at hb
          dsimp only at hb
          simp only [Option.some.injEq] at hb
          exact Or.inr (hb ▸ List.mem_cons_self v0 rest)
        · exact Or.inr (List.mem_cons_of_mem _ hmem)
    · -- the count of v0 does not beat the running best
      have hst : voteStep st v0 =
          ((fun w => if w = v0 then st.1 v0 + 1 else st.1 w),
            st.2.1, st.2.2) := by
        simp only [voteStep, if_neg hc]
      have hbest : ∀ v, st.2.1 = some v → v ≠ v0 := by
        intro v hv heq
        subst heq
        exact hc (by rw [h2 v hv]; omega)
      have ih := voteCore_go rest (voteStep st v0)
        (by
          intro w
          rw [hst]
          dsimp only
          by_cases hw : w = v0
          · rw [if_pos hw]
            omega
          · rw [if_neg hw]
            exact h1 w)
        (by
          intro v hv
          rw [hst] at hv ⊢
          dsimp only at hv ⊢
          rw [if_neg (hbest v hv)]
          exact h2 v hv)
        (by
          rw [hst]
          intro h
          exact h3 h)
      refine ⟨?_, ih.2.1, ih.2.2.1, ?_, ?_⟩
      · intro w
        rw [ih.1 w, hst, keyCount]
        dsimp only
        by_cases hw : w = v0
        · subst hw
          rw [if_pos rfl, if_pos rfl]
          omega
        · rw [if_neg hw, if_neg (Ne.symm hw)]
          omega
      · intro hnone
        rcases ih.2.2.2.1 hnone with ⟨hb, _⟩
        rw [hst] at hb
        dsimp only at hb
        have h0 := h3 hb
        exact (hc (by omega)).elim
      · intro v hv
        rcases ih.2.2.2.2 v hv with hb | hmem
        · rw [hst] at hb
          exact Or.inl hb
        · exact Or.inr (List.mem_cons_of_mem _ hmem)

/-- Specification of `voteCore` from the empty tally. -/
theorem voteCore_spec {K : Type} [DecidableEq K] (keys : List K) :
    (∀ w, (voteCore keys).1 w = keyCount w keys)
    ∧ (∀ w, keyCount w keys ≤ (voteCore keys).2.2)
    ∧ (∀ v, (voteCore keys).2.1 = some v →
        keyCount v keys = (voteCore keys).2.2 ∧ v ∈ keys)
    ∧ ((voteCore keys).2.1 = none → keys = []) := by
  have h := voteCore_go keys ((fun _ => 0), none, 0)
    (fun w => Nat.le_refl 0) (fun v hv => by simp at hv) (fun _ => rfl)
  refine ⟨fun w => by simpa using h.1 w, ?_, ?_, fun hn => (h.2.2.2.1 hn).2⟩
  · intro w
    have := h.2.1 w
    rwa [h.1 w, Nat.zero_add] at this
  · intro v hv
    refine ⟨?_, ?_⟩
    · have := h.2.2.1 v hv
      rwa [h.1 v, Nat.zero_add] at this
    · rcases h.2.2.2.2 v hv with hb | hmem
      · simp at hb
      · exact hmem

/-- The inline falsy skip of `majorityVote` is the counting loop over the
list with the falsy entries removed. -/
theorem majorityVote_eq_voteCore (values : List String) :
    majorityVote values =
      (voteCore (values.filter (fun v => !(v == "")))).2.1 := by
  suffices h : ∀ st : (String → Nat) × Option String × Nat,
      values.foldl (fun st v => if v = "" then st else voteStep st v) st =
        (values.filter (fun v => !(v == ""))).foldl voteStep st by
    simp [majorityVote, voteCore, h]
  induction values with
  | nil => intro st; rfl
  | cons v rest ih =>
    intro st
    by_cases hv : v = ""
    · simp [hv, List.filter_cons, ih]
    · simp [hv, List.filter_cons, ih]

/-- Counting a non-falsy key ignores the falsy filter. -/
theorem keyCount_filter_ne (values : List String) (w : String)
    (hw : w ≠ "") :
    keyCount w (values.filter (fun v => !(v == ""))) = keyCount w values := by
  induction values with
  | nil => rfl
  | cons v rest ih =>
    by_cases hv : v = ""
    · subst hv
      simp only [List.filter_cons, show (!("" == w) : Bool) = _ from rfl]
      simp [keyCount, ih, Ne.symm hw]
    · simp [List.filter_cons, hv, keyCount, ih]

/-- C7 counterexample: in `["b","a","a","b"]` the languages a and b tie at
the maximum count 2 and the first-seen tied language is b, yet the vote
returns a (the language whose running count reached the maximum first), so
"first-seen language wins ties" fails. -/
theorem voteLanguage_tie_counterexample :
    voteLanguage ["b", "a", "a", "b"] = "a"
    ∧ (["b", "a", "a", "b"] : List String).count "a" = 2
    ∧ (["b", "a", "a", "b"] : List String).count "b" = 2
    ∧ (∀ w : String, (["b", "a", "a", "b"] : List String).count w ≤ 2)
    ∧ (["b", "a", "a", "b"] : List String).head? = some "b"
    ∧ ("a" : String) ≠ "b" := by
  refine ⟨by decide, by decide, by decide, ?_, by decide, by decide⟩
  intro w
  by_cases ha : w = "a"
  · subst ha; decide
  by_cases hb : w = "b"
  · subst hb; decide
  simp [List.count_cons, ha, hb]

/-- C7 (amended): `majorityVote` composed with the en fallback returns a
language with the maximum occurrence count among the non-falsy samples;
ties go to the language whose running count reaches the maximum first
(`["b","a","a","b"]` elects a), not necessarily the first-seen tied
language; the empty list and all-falsy lists fall back to en. -/
theorem voteLanguage_plurality :
    (∀ values : List String, (∀ v ∈ values, v = "") →
      voteLanguage values = "en")
    ∧ (∀ (values : List String) (v : String), majorityVote values = some v →
        v ∈ values ∧ v ≠ "" ∧ voteLanguage values = v ∧
        ∀ w : String, w ≠ "" → values.count w ≤ values.count v)
    ∧ (∀ values : List String, (∃ v ∈ values, v ≠ "") →
        ∃ v, majorityVote values = some v)
    ∧ voteLanguage ["b", "a", "a", "b"] = "a" := by
  refine ⟨?_, ?_, ?_, by decide⟩
  · intro values hall
    have hfilter : values.filter (fun v => !(v == "")) = [] := by
      rw [List.filter_eq_nil_iff]
      intro v hv
      simp [hall v hv]
    rw [voteLanguage, majorityVote_eq_voteCore, hfilter]
    rfl
  · intro values v hv
    rw [majorityVote_eq_voteCore] at hv
    obtain ⟨hcnt, hmem⟩ := (voteCore_spec _).2.2.1 v hv
    have hvne : v ≠ "" := by
      have := List.mem_filter.mp hmem
      simpa using this.2
    have hvmem : v ∈ values := (List.mem_filter.mp hmem).1
    refine ⟨hvmem, hvne, ?_, ?_⟩
    · rw [voteLanguage, majorityVote_eq_voteCore, hv]; rfl
    · intro w hw
      have hle := (voteCore_spec (values.filter (fun v => !(v == "")))).2.1 w
      rw [keyCount_filter_ne values w hw, ← hcnt,
        keyCount_filter_ne values v hvne] at hle
      rw [keyCount_eq_count w values, keyCount_eq_count v values] at hle
      exact hle
  · intro values ⟨v, hvmem, hvne⟩
    rw [majorityVote_eq_voteCore]
    rcases hbest : (voteCore (values.filter (fun v => !(v == "")))).2.1 with
      _ | w
    · have := (voteCore_spec _).2.2.2 hbest
      have hvfil : v ∈ values.filter (fun v => !(v == "")) :=
        List.mem_filter.mpr ⟨hvmem, by simpa using hvne⟩
      rw [this] at hvfil
      simp at hvfil
    · exact ⟨w, rfl⟩

/-- Witness for C7: a concrete plurality vote and a concrete all-falsy
fallback. -/
theorem voteLanguage_plurality_witness :
    voteLanguage ["", ""] = "en"
    ∧ ("en" ∈ (["en", "en", "ja"] : List String) ∧ "en" ≠ "" ∧
        voteLanguage ["en", "en", "ja"] = "en" ∧
        ∀ w : String, w ≠ "" →
          (["en", "en", "ja"] : List String).count w ≤
            (["en", "en", "ja"] : List String).count "en") :=
  ⟨voteLanguage_plurality.1 ["", ""] (by decide),
   voteLanguage_plurality.2.1 ["en", "en", "ja"] "en" (by decide)⟩

/-! ## C8: the identity vote -/

/-- The dex-vote fold is the counting loop over the list of dex numbers. -/
theorem dexFold_eq_voteCore (ms : List PMatch) :
    ms.foldl (fun st m => voteStep st m.dexNumber) ((fun _ => 0), none, 0) =
      voteCore (ms.map (fun x => x.dexNumber)) := by
  rw [voteCore, List.foldl_map]

/-- C8: identity voting groups matches by `dexNumber` and elects a dex with
the maximum occurrence count (not the maximum summed confidence); the
representative returned is the first match in list order carrying the winning
dex; the empty list yields null.  `[4, 4, 6]` elects the id-4 result even
when the id-6 match has a larger summed confidence, and of two distinct id-4
matches the first encountered is returned. -/
theorem dexVote_plurality :
    dexVote [] = none
    ∧ dexVoteScan [] = none
    ∧ (∀ (ms : List PMatch) (m : PMatch), dexVote ms = some m →
        m ∈ ms ∧
        ms.find? (fun x => x.dexNumber == m.dexNumber) = some m ∧
        ∀ d : Int, (ms.map (fun x => x.dexNumber)).count d ≤
          (ms.map (fun x => x.dexNumber)).count m.dexNumber)
    ∧ (∀ (ms : List PMatch) (m : PMatch), dexVoteScan ms = some m →
        m ∈ ms ∧
        ms.find? (fun x => x.dexNumber == m.dexNumber) = some m ∧
        ∀ d : Int, (ms.map (fun x => x.dexNumber)).count d ≤
          (ms.map (fun x => x.dexNumber)).count m.dexNumber)
    ∧ dexVote [⟨"a", 4, 2⟩, ⟨"b", 4, 2⟩, ⟨"c", 6, 20⟩] = some ⟨"a", 4, 2⟩
    ∧ sumScores [⟨"a", 4, 2⟩, ⟨"b", 4, 2⟩, ⟨"c", 6, 20⟩] 4 <
        sumScores [⟨"a", 4, 2⟩, ⟨"b", 4, 2⟩, ⟨"c", 6, 20⟩] 6
    ∧ dexVote [⟨"x", 4, 10⟩, ⟨"y", 4, 14⟩] = some ⟨"x", 4, 10⟩ := by
  have key : ∀ (ms : List PMatch) (bd : Int),
      (voteCore (ms.map (fun x => x.dexNumber))).2.1 = some bd →
      (∀ (m : PMatch),
        ms.find? (fun x => x.dexNumber == bd) = some m →
        m ∈ ms ∧
        ms.find? (fun x => x.dexNumber == m.dexNumber) = some m ∧
        ∀ d : Int, (ms.map (fun x => x.dexNumber)).count d ≤
          (ms.map (fun x => x.dexNumber)).count m.dexNumber) ∧
      (ms.find? (fun x => x.dexNumber == bd)).isSome := by
    intro ms bd hbest
    obtain ⟨hcnt, hmem⟩ :=
      (voteCore_spec (ms.map (fun x => x.dexNumber))).2.2.1 bd hbest
    constructor
    · intro m hfind
      have hpred := List.find?_some hfind
      have hdex : m.dexNumber = bd := by simpa using hpred
      have hmmem : m ∈ ms := List.mem_of_find?_eq_some hfind
      refine ⟨hmmem, by rw [hdex]; exact hfind, ?_⟩
      intro d
      have h1 := (voteCore_spec (ms.map (fun x => x.dexNumber))).2.1 d
      rw [keyCount_eq_count] at h1
      rw [hdex, ← keyCount_eq_count bd (ms.map (fun x => x.dexNumber)), hcnt]
      exact h1
    · obtain ⟨x, hxmem, hxdex⟩ := List.mem_map.mp hmem
      exact List.find?_isSome.mpr ⟨x, hxmem, by simp [hxdex]⟩
  refine ⟨rfl, rfl, ?_, ?_, by decide, by decide, by decide⟩
  · intro ms m hm
    rw [dexVote, dexFold_eq_voteCore] at hm
    rcases hbest : (voteCore (ms.map (fun x => x.dexNumber))).2.1 with _ | bd
    · rw [hbest] at hm; exact absurd hm (by simp)
    · rw [hbest] at hm
      dsimp only at hm
      by_cases h0 : bd = 0
      · rw [if_pos h0] at hm; exact absurd hm (by simp)
      · rw [if_neg h0] at hm
        exact ((key ms bd hbest).1 m hm)
  · intro ms m hm
    rw [dexVoteScan, dexFold_eq_voteCore] at hm
    rcases hbest : (voteCore (ms.map (fun x => x.dexNumber))).2.1 with _ | bd
    · rw [hbest] at hm; exact absurd hm (by simp)
    · rw [hbest] at hm
      dsimp only at hm
      by_cases h0 : bd = 0
      · rw [if_pos h0] at hm; exact absurd hm (by simp)
      · rw [if_neg h0] at hm
        rcases hfind : ms.find? (fun x => x.dexNumber == bd) with _ | chosen
        · have := (key ms bd hbest).2
          rw [hfind] at this
          exact absurd this (by simp)
        · rw [hfind] at hm
          dsimp only at hm
          have hmc : chosen = m := by simpa using hm
          subst hmc
          exact (key ms bd hbest).1 chosen hfind

/-- Witness for C8 at a concrete match list. -/
theorem dexVote_plurality_witness :
    (⟨"a", 4, 2⟩ : PMatch) ∈
        ([⟨"a", 4, 2⟩, ⟨"b", 4, 2⟩, ⟨"c", 6, 20⟩] : List PMatch)
    ∧ ([⟨"a", 4, 2⟩, ⟨"b", 4, 2⟩, ⟨"c", 6, 20⟩] : List PMatch).find?
        (fun x => x.dexNumber == (4 : Int)) = some ⟨"a", 4, 2⟩
    ∧ ∀ d : Int,
        (([⟨"a", 4, 2⟩, ⟨"b", 4, 2⟩, ⟨"c", 6, 20⟩] : List PMatch).map
          (fun x => x.dexNumber)).count d ≤
        (([⟨"a", 4, 2⟩, ⟨"b", 4, 2⟩, ⟨"c", 6, 20⟩] : List PMatch).map
          (fun x => x.dexNumber)).count 4 :=
  dexVote_plurality.2.2.1 [⟨"a", 4, 2⟩, ⟨"b", 4, 2⟩, ⟨"c", 6, 20⟩]
    ⟨"a", 4, 2⟩ (by decide)

/-! ## C5: phase 2 runs on the single consensus language -/

/-- C5: after the phase-1 vote, `runFullScan` factors through
`phase2Result`, which matches EVERY frame with the single consensus
language; `detectPokemonWithLang` resolves its OCR pack and name table from
the language argument alone (so every observation is matched against the
consensus language's table); a missing or empty table falls back to the
English table; and in the concrete two-en-one-ja scenario the consensus is
en and all three frames (including the one that voted ja) are matched
against the English table. -/
theorem runFullScan_consensus :
    (∀ (ocr : String → String → Nat → String) (data : NameData)
        (urls : List String), urls ≠ [] →
      runFullScanCore ocr data urls =
        some (consensusLang ocr urls,
          phase2Result ocr data urls (consensusLang ocr urls)))
    ∧ (∀ (ocr : String → String → Nat → String) (data : NameData)
        (url lang : String),
        (detectPokemonWithLang ocr data url lang).1 =
          (let nm := getNameMapForLang data lang
           let ms := (List.range 3).filterMap
             (fun i => findBestPokemonMatch
               (ocr url (langCodeToTesseract lang) i) nm lang)
           if ms = [] then none else dexVote ms))
    ∧ (∀ (data : NameData) (lang : String),
        List.lookup lang data = none ∨ List.lookup lang data = some [] →
        getNameMapForLang data lang = (List.lookup "en" data).getD [])
    ∧ (["u1", "u2", "u3"].map (detectLanguageWithVoting scOcr) =
        ["en", "en", "ja"])
    ∧ consensusLang scOcr ["u1", "u2", "u3"] = "en"
    ∧ runFullScanCore scOcr scData ["u1", "u2", "u3"] =
        some ("en", some ⟨"pikachu", 25, 214⟩)
    ∧ (detectPokemonWithLang scOcr scData "u3" "en").1 =
        some ⟨"pikachu", 25, 214⟩
    ∧ getNameMapForLang scData "en" = [("pikachu", 25)]
    ∧ List.lookup "pikachu" ((List.lookup "ja" scData).getD []) = none := by
  refine ⟨?_, ?_, ?_, by decide, by decide, by decide, by decide, by decide,
    by decide⟩
  · intro ocr data urls h
    simp only [runFullScanCore, consensusLang, phase2Result, if_neg h]
  · intro ocr data url lang
    simp only [detectPokemonWithLang, List.filterMap_map]
    rfl
  · intro data lang h
    rcases h with h | h <;> simp [getNameMapForLang, h]

/-- Witness for C5: the factorisation and the fallback at concrete inputs. -/
theorem runFullScan_consensus_witness :
    runFullScanCore scOcr scData ["u1", "u2", "u3"] =
      some (consensusLang scOcr ["u1", "u2", "u3"],
        phase2Result scOcr scData ["u1", "u2", "u3"]
          (consensusLang scOcr ["u1", "u2", "u3"]))
    ∧ getNameMapForLang scData "fr" = (List.lookup "en" scData).getD [] :=
  ⟨runFullScan_consensus.1 scOcr scData ["u1", "u2", "u3"] (by decide),
   runFullScan_consensus.2.2.1 scData "fr" (Or.inl (by decide))⟩

/-! ## Shared lemmas about the matcher loop -/

/-- A substring hit is no longer than the text. -/
theorem includes_length (t c : List Char) (h : includes t c = true) :
    c.length ≤ t.length := by
  unfold includes at h
  obtain ⟨i, hi, hp⟩ := List.any_eq_true.mp h
  have hc : (t.drop i).take c.length = c := by simpa using hp
  have := congrArg List.length hc
  rw [List.length_take, List.length_drop] at this
  omega

/-- Every iteration of the candidate loop either leaves the running best
unchanged or records the current entry, strictly increasing the best score
via the exact-substring score or an accepted fuzzy score. -/
theorem matchStep_cases (tn : List Char) (lang : String)
    (st : Option (String × Int) × Int) (e : String × Int) :
    matchStep tn lang st e = st ∨
    (normalizeForMatching e.1 lang ≠ [] ∧
     ¬(e.2 = 0 ∨ e.2 < 1 ∨ e.2 > MAX_POKEMON) ∧
     ∃ score : Int, matchStep tn lang st e = (some (e.1, e.2), score) ∧
       st.2 < score ∧
       ((includes tn (normalizeForMatching e.1 lang) = true ∧
          score = exactScore (normalizeForMatching e.1 lang).length) ∨
        (includes tn (normalizeForMatching e.1 lang) = false ∧
          ∃ d, bestSubstringDistance tn (normalizeForMatching e.1 lang) =
              some d ∧
            d ≤ maxAllowed (normalizeForMatching e.1 lang).length ∧
            score = fuzzyScore (normalizeForMatching e.1 lang).length d))) := by
  by_cases hdex : e.2 = 0 ∨ e.2 < 1 ∨ e.2 > MAX_POKEMON
  · left
    simp only [matchStep, if_pos hdex]
  by_cases hcn : normalizeForMatching e.1 lang = []
  · left
    simp only [matchStep, if_neg hdex, if_pos hcn]
  by_cases hinc : includes tn (normalizeForMatching e.1 lang) = true
  · by_cases hsc : exactScore (normalizeForMatching e.1 lang).length > st.2
    · right
      refine ⟨hcn, hdex, _, ?_, hsc, Or.inl ⟨hinc, rfl⟩⟩
      simp only [matchStep, if_neg hdex, if_neg hcn, if_pos hinc, if_pos hsc]
    · left
      simp only [matchStep, if_neg hdex, if_neg hcn, if_pos hinc, if_neg hsc]
  · have hinc' : includes tn (normalizeForMatching e.1 lang) = false := by
      simpa using hinc
    rcases hd : bestSubstringDistance tn (normalizeForMatching e.1 lang)
      with _ | d
    · left
      simp only [matchStep, if_neg hdex, if_neg hcn, if_neg hinc, hd]
    · by_cases htol : d ≤ maxAllowed (normalizeForMatching e.1 lang).length
      · by_cases hsc :
            fuzzyScore (normalizeForMatching e.1 lang).length d > st.2
        · right
          refine ⟨hcn, hdex, _, ?_, hsc, Or.inr ⟨hinc', d, rfl, htol, rfl⟩⟩
          simp only [matchStep, if_neg hdex, if_neg hcn, if_neg hinc, hd,
            if_pos htol, if_pos hsc]
        · left
          simp only [matchStep, if_neg hdex, if_neg hcn, if_neg hinc, hd,
            if_pos htol, if_neg hsc]
      · left
        simp only [matchStep, if_neg hdex, if_neg hcn, if_neg hinc, hd,
          if_neg htol]

/-- The running best score never decreases. -/
theorem matchStep_mono (tn : List Char) (lang : String)
    (st : Option (String × Int) × Int) (e : String × Int) :
    st.2 ≤ (matchStep tn lang st e).2 := by
  rcases matchStep_cases tn lang st e with h | ⟨_, _, score, heq, hlt, _⟩
  · rw [h]
  · rw [heq]
    exact le_of_lt hlt

/-- The running best score never decreases across the whole loop. -/
theorem foldl_matchStep_mono (tn : List Char) (lang : String)
    (l : List (String × Int)) :
    ∀ st : Option (String × Int) × Int,
      st.2 ≤ (l.foldl (matchStep tn lang) st).2 := by
  induction l with
  | nil => intro st; exact le_refl _
  | cons e l ih =>
    intro st
    rw [List.foldl_cons]
    exact le_trans (matchStep_mono tn lang st e) (ih _)

/-- An exact-substring entry with a valid dex forces the running best score
to at least its exact score. -/
theorem matchStep_exact_ge (tn : List Char) (lang : String)
    (st : Option (String × Int) × Int) (e : String × Int)
    (hdex : ¬(e.2 = 0 ∨ e.2 < 1 ∨ e.2 > MAX_POKEMON))
    (hcn : normalizeForMatching e.1 lang ≠ [])
    (hinc : includes tn (normalizeForMatching e.1 lang) = true) :
    exactScore (normalizeForMatching e.1 lang).length ≤
      (matchStep tn lang st e).2 := by
  by_cases hsc : exactScore (normalizeForMatching e.1 lang).length > st.2
  · simp only [matchStep, if_neg hdex, if_neg hcn, if_pos hinc, if_pos hsc]
    omega
  · simp only [matchStep, if_neg hdex, if_neg hcn, if_pos hinc, if_neg hsc]
    omega

/-- A valid id yields a placement (helper shared by several claims). -/
theorem findSlot_ok_of_bounds (i : Int) (h1 : 1 ≤ i) (h2 : i ≤ 1025) :
    ∃ s : Slot, findSlot i = Except.ok s := by
  have hguard : ¬(i < 1 ∨ i > MAX_POKEMON) := by
    simp only [MAX_POKEMON]; omega
  refine ⟨⟨(i - 1).ediv SLOTS_PER_BINDER + 1,
          ((i - 1).emod SLOTS_PER_BINDER).ediv SLOTS_PER_PAGE + 1,
          ((i - 1).emod SLOTS_PER_BINDER).emod SLOTS_PER_PAGE + 1,
          (i - 1).emod SLOTS_PER_BINDER + 1⟩, ?_⟩
  simp only [findSlot, if_neg hguard]

/-! ## C10: every returned match is in catalog range with positive score -/

/-- C10: a non-null result of `findBestPokemonMatch` has a dex in [1, 1025]
(invalid entries are skipped) and a strictly positive score (so candidates
whose score would be ≤ 0 are never recorded), and feeding its dex to
`findSlot` never produces a range error. -/
theorem findBestPokemonMatch_sound (text : String)
    (tbl : List (String × Int)) (lang : String) (m : PMatch)
    (hm : findBestPokemonMatch text tbl lang = some m) :
    1 ≤ m.dexNumber ∧ m.dexNumber ≤ 1025 ∧ 0 < m.score ∧
    ∃ s : Slot, findSlot m.dexNumber = Except.ok s := by
  by_cases htext : text = ""
  · rw [findBestPokemonMatch, if_pos htext] at hm
    exact absurd hm (by simp)
  rw [findBestPokemonMatch, if_neg htext] at hm
  simp only [] at hm
  set tn := normalizeForMatching text lang with htn
  have hfold : ∀ (l : List (String × Int))
      (st : Option (String × Int) × Int),
      (0 ≤ st.2 ∧ ∀ n d, st.1 = some (n, d) →
        1 ≤ d ∧ d ≤ 1025 ∧ 0 < st.2) →
      (0 ≤ (l.foldl (matchStep tn lang) st).2 ∧
       ∀ n d, (l.foldl (matchStep tn lang) st).1 = some (n, d) →
         1 ≤ d ∧ d ≤ 1025 ∧ 0 < (l.foldl (matchStep tn lang) st).2) := by
    intro l
    induction l with
    | nil => intro st h; exact h
    | cons e l ih =>
      intro st h
      rw [List.foldl_cons]
      refine ih _ ?_
      rcases matchStep_cases tn lang st e with hcase |
        ⟨hcn, hdex, score, heq, hlt, _⟩
      · rw [hcase]; exact h
      · rw [heq]
        simp only [MAX_POKEMON] at hdex
        refine ⟨by dsimp only; omega, ?_⟩
        intro n d hnd
        dsimp only at hnd ⊢
        have : e.1 = n ∧ e.2 = d := by
          simpa [Prod.ext_iff] using hnd
        have h0 := h.1
        omega
  have hinv := hfold tbl (none, 0)
    ⟨le_refl 0, fun n d h => absurd h (by simp)⟩
  rcases hbest : (tbl.foldl (matchStep tn lang) (none, 0)).1 with _ | nd
  · rw [hbest] at hm
    exact absurd hm (by simp)
  · rw [hbest] at hm
    dsimp only at hm
    have hmm : m = ⟨nd.1, nd.2, (tbl.foldl (matchStep tn lang) (none, 0)).2⟩ := by
      simpa using hm.symm
    have hb := hinv.2 nd.1 nd.2 (by rw [hbest])
    subst hmm
    refine ⟨hb.1, hb.2.1, hb.2.2, findSlot_ok_of_bounds _ hb.1 hb.2.1⟩

/-- Witness for C10 at a concrete match. -/
theorem findBestPokemonMatch_sound_witness :
    1 ≤ (⟨"charmander", 4, 220⟩ : PMatch).dexNumber ∧
    (⟨"charmander", 4, 220⟩ : PMatch).dexNumber ≤ 1025 ∧
    0 < (⟨"charmander", 4, 220⟩ : PMatch).score ∧
    ∃ s : Slot,
      findSlot (⟨"charmander", 4, 220⟩ : PMatch).dexNumber = Except.ok s :=
  findBestPokemonMatch_sound "charmander appears here"
    [("charmander", 4), ("charizard", 6)] "en" ⟨"charmander", 4, 220⟩
    (by decide)

/-! ## C3: the exact-substring bonus -/

set_option maxRecDepth 100000 in
/-- C3 counterexample: in `bigText` the candidate "a" is an exact substring
hit (score 1 + 100 = 101, stored 202) while `bigB` is not a substring and
only matches fuzzily (distance 1, score 103 - 1.5 = 101.5, stored 203), yet
the matcher returns the FUZZY candidate id 2 — so the exact-match bonus does
not exceed every achievable fuzzy score and an exact-substring hit does not
always outrank every fuzzy hit. -/
theorem findBestPokemonMatch_fuzzy_beats_exact :
    findBestPokemonMatch bigText bigTable "en" = some ⟨bigB, 2, 203⟩
    ∧ includes (normalizeForMatching bigText "en")
        (normalizeForMatching "a" "en") = true
    ∧ includes (normalizeForMatching bigText "en")
        (normalizeForMatching bigB "en") = false
    ∧ exactScore (normalizeForMatching "a" "en").length < 203
    ∧ scoreQ 203 = 203 / 2
    ∧ (2 : Int) ≠ 1 := by
  refine ⟨by decide, by decide, by decide, by decide, ?_, by decide⟩
  norm_num [scoreQ]

/-- C3 (amended): an exact-substring candidate is scored
`length(candidate) + 100`; since a fuzzy score never exceeds the candidate's
length, the bonus dominates the fuzzy score of every candidate of normalized
length at most 100, so when all table candidates have normalized length at
most 100 (true of every real name table) an exact-substring hit always
outranks every fuzzy hit; without that bound a candidate of length ≥ 102 can
win fuzzily.  The concrete charmander/charizard case returns id 4 with the
exact-bonus score 110. -/
theorem findBestPokemonMatch_exact_bonus :
    (∀ n : Nat, scoreQ (exactScore n) = (n : Rat) + 100)
    ∧ (∀ (tn : List Char) (lang : String)
        (st : Option (String × Int) × Int) (e : String × Int),
        ¬(e.2 = 0 ∨ e.2 < 1 ∨ e.2 > MAX_POKEMON) →
        normalizeForMatching e.1 lang ≠ [] →
        includes tn (normalizeForMatching e.1 lang) = true →
        matchStep tn lang st e =
          (if exactScore (normalizeForMatching e.1 lang).length > st.2 then
            (some (e.1, e.2),
              exactScore (normalizeForMatching e.1 lang).length)
          else st))
    ∧ (∀ (text : String) (tbl : List (String × Int)) (lang : String),
        (∀ e ∈ tbl, (normalizeForMatching e.1 lang).length ≤ 100) →
        (∃ e ∈ tbl, ¬(e.2 = 0 ∨ e.2 < 1 ∨ e.2 > MAX_POKEMON) ∧
          normalizeForMatching e.1 lang ≠ [] ∧
          includes (normalizeForMatching text lang)
            (normalizeForMatching e.1 lang) = true) →
        ∃ m, findBestPokemonMatch text tbl lang = some m ∧
          includes (normalizeForMatching text lang)
            (normalizeForMatching m.name lang) = true ∧
          202 ≤ m.score ∧ (101 : Rat) ≤ scoreQ m.score)
    ∧ findBestPokemonMatch "charmander appears here"
        [("charmander", 4), ("charizard", 6)] "en" =
        some ⟨"charmander", 4, 220⟩
    ∧ scoreQ 220 = 110 := by
  refine ⟨?_, ?_, ?_, by decide, by norm_num [scoreQ]⟩
  · intro n
    unfold scoreQ exactScore
    push_cast
    ring
  · intro tn lang st e hdex hcn hinc
    simp only [matchStep, if_neg hdex, if_neg hcn, if_pos hinc]
  · intro text tbl lang hlen hex
    obtain ⟨e, hemem, hedex, hecn, heinc⟩ := hex
    have htext : text ≠ "" := by
      intro h
      subst h
      have h0 : normalizeForMatching "" lang = [] := rfl
      rw [h0] at heinc
      have hle := includes_length _ _ heinc
      simp only [List.length_nil] at hle
      exact hecn (List.eq_nil_of_length_eq_zero (by omega))
    set tn := normalizeForMatching text lang with htn
    have hstep_P : ∀ (st : Option (String × Int) × Int) (e' : String × Int),
        e' ∈ tbl →
        (200 < st.2 → ∃ n d, st.1 = some (n, d) ∧
          includes tn (normalizeForMatching n lang) = true) →
        (200 < (matchStep tn lang st e').2 → ∃ n d,
          (matchStep tn lang st e').1 = some (n, d) ∧
          includes tn (normalizeForMatching n lang) = true) := by
      intro st e' hmem hP
      rcases matchStep_cases tn lang st e' with hcase |
        ⟨hcn', hdex', score, heq, hlt, hsc⟩
      · rw [hcase]; exact hP
      · rw [heq]
        dsimp only
        intro hgt
        rcases hsc with ⟨hi, hs⟩ | ⟨hi, d, hd, htol, hs⟩
        · exact ⟨e'.1, e'.2, rfl, hi⟩
        · exfalso
          have hl := hlen e' hmem
          rw [hs] at hgt
          unfold fuzzyScore at hgt
          have hd0 : (0 : Int) ≤ (d : Int) := Int.natCast_nonneg d
          have hl' : ((normalizeForMatching e'.1 lang).length : Int) ≤ 100 :=
            by exact_mod_cast hl
          omega
    have hfold_P : ∀ (l : List (String × Int)), (∀ x ∈ l, x ∈ tbl) →
        ∀ st : Option (String × Int) × Int,
        (200 < st.2 → ∃ n d, st.1 = some (n, d) ∧
          includes tn (normalizeForMatching n lang) = true) →
        (200 < (l.foldl (matchStep tn lang) st).2 → ∃ n d,
          (l.foldl (matchStep tn lang) st).1 = some (n, d) ∧
          includes tn (normalizeForMatching n lang) = true) := by
      intro l
      induction l with
      | nil => intro _ st h; exact h
      | cons e' l ih =>
        intro hsub st hP
        rw [List.foldl_cons]
        exact ih (fun x hx => hsub x (List.mem_cons_of_mem _ hx)) _
          (hstep_P st e' (hsub e' (List.mem_cons_self _ _)) hP)
    obtain ⟨l1, l2, rfl⟩ := List.append_of_mem hemem
    have hfin : 202 ≤
        ((l1 ++ e :: l2).foldl (matchStep tn lang) (none, 0)).2 := by
      rw [List.foldl_append, List.foldl_cons]
      have h1 := matchStep_exact_ge tn lang
        (l1.foldl (matchStep tn lang) (none, 0)) e hedex hecn heinc
      have h2 := foldl_matchStep_mono tn lang l2
        (matchStep tn lang (l1.foldl (matchStep tn lang) (none, 0)) e)
      have hlen1 : 1 ≤ (normalizeForMatching e.1 lang).length :=
        Nat.one_le_iff_ne_zero.mpr
          (fun h => hecn (List.eq_nil_of_length_eq_zero h))
      unfold exactScore at h1
      have hc1 : (1 : Int) ≤ ((normalizeForMatching e.1 lang).length : Int) :=
        by exact_mod_cast hlen1
      omega
    obtain ⟨n, d, hsome, hninc⟩ :=
      hfold_P (l1 ++ e :: l2) (fun x hx => hx) (none, 0)
        (fun h => absurd h (by norm_num)) (by omega)
    refine ⟨⟨n, d, ((l1 ++ e :: l2).foldl (matchStep tn lang) (none, 0)).2⟩,
      ?_, hninc, hfin, ?_⟩
    · rw [findBestPokemonMatch, if_neg htext]
      simp only []
      rw [← htn, hsome]
    · unfold scoreQ
      have hq : (202 : Rat) ≤
          (((l1 ++ e :: l2).foldl (matchStep tn lang) (none, 0)).2 : Rat) :=
        by exact_mod_cast hfin
      linarith

/-- Witness for C3 at the charmander table. -/
theorem findBestPokemonMatch_exact_bonus_witness :
    ∃ m, findBestPokemonMatch "charmander appears here"
        [("charmander", 4), ("charizard", 6)] "en" = some m ∧
      includes (normalizeForMatching "charmander appears here" "en")
        (normalizeForMatching m.name "en") = true ∧
      202 ≤ m.score ∧ (101 : Rat) ≤ scoreQ m.score :=
  findBestPokemonMatch_exact_bonus.2.2.1 "charmander appears here"
    [("charmander", 4), ("charizard", 6)] "en" (by decide)
    ⟨("charmander", 4), by decide, by decide, by decide, by decide⟩

/-! ## C4: the fuzzy tolerance and scoring -/

/-- The running-minimum fold of the window loop computes a minimum that is
attained and dominates every list element. -/
theorem foldl_min_spec :
    ∀ (ds : List Nat) (m0 : Nat),
    ∃ m, ds.foldl (fun acc d =>
        match acc with
        | none => some d
        | some m' => some (min m' d)) (some m0) = some m ∧
      (m = m0 ∨ m ∈ ds) ∧ m ≤ m0 ∧ ∀ x ∈ ds, m ≤ x
  | [], m0 => ⟨m0, rfl, Or.inl rfl, le_refl m0, by simp⟩
  | d :: ds, m0 => by
    obtain ⟨m, heq, hmem, hle, hall⟩ := foldl_min_spec ds (min m0 d)
    refine ⟨m, heq, ?_, le_trans hle (min_le_left _ _), ?_⟩
    · rcases hmem with h | h
      · rcases le_total m0 d with hmd | hmd
        · exact Or.inl (by rw [h, min_eq_left hmd])
        · exact Or.inr (List.mem_cons.mpr
            (Or.inl (by rw [h, min_eq_right hmd])))
      · exact Or.inr (List.mem_cons_of_mem _ h)
    · intro x hx
      rcases List.mem_cons.mp hx with h | h
      · exact h ▸ le_trans hle (min_le_right _ _)
      · exact hall x h

/-- C4: the fuzzy tolerance is 1 for normalized candidates of length ≤ 3 and
2 otherwise; an accepted fuzzy candidate is scored
`length(candidate) - dist * 1.5`; the compared distance is the whole-text
Levenshtein distance when the candidate is at least as long as the text, and
otherwise the minimum distance over all same-length windows of the text; the
substituted-character text charmanber fuzzily matches charmander (distance 1,
score 8.5) while xyzxyzxyz matches nothing. -/
theorem fuzzy_tolerance_spec :
    (∀ n : Nat, maxAllowed n = if n ≤ 3 then 1 else 2)
    ∧ (∀ (n d : Nat), scoreQ (fuzzyScore n d) = (n : Rat) - (d : Rat) * 1.5)
    ∧ (∀ (t c : List Char), t ≠ [] → c ≠ [] → t.length ≤ c.length →
        bestSubstringDistance t c = some (levenshtein c t))
    ∧ (∀ (t c : List Char) (d : Nat), bestSubstringDistance t c = some d →
        c.length < t.length →
        (∃ i ≤ t.length - c.length,
          d = levenshtein c ((t.drop i).take c.length)) ∧
        (∀ i ≤ t.length - c.length,
          d ≤ levenshtein c ((t.drop i).take c.length)))
    ∧ (∀ (tn : List Char) (lang : String)
        (st : Option (String × Int) × Int) (e : String × Int),
        matchStep tn lang st e ≠ st →
        includes tn (normalizeForMatching e.1 lang) = false →
        ∃ d, bestSubstringDistance tn (normalizeForMatching e.1 lang) =
            some d ∧
          d ≤ maxAllowed (normalizeForMatching e.1 lang).length ∧
          matchStep tn lang st e = (some (e.1, e.2),
            fuzzyScore (normalizeForMatching e.1 lang).length d))
    ∧ findBestPokemonMatch "charmanber" [("charmander", 4)] "en" =
        some ⟨"charmander", 4, 17⟩
    ∧ scoreQ 17 = 17 / 2
    ∧ includes (normalizeForMatching "charmanber" "en")
        (normalizeForMatching "charmander" "en") = false
    ∧ bestSubstringDistance (normalizeForMatching "charmanber" "en")
        (normalizeForMatching "charmander" "en") = some 1
    ∧ findBestPokemonMatch "xyzxyzxyz" [("charmander", 4)] "en" = none := by
  refine ⟨?_, ?_, ?_, ?_, ?_, by decide, by norm_num [scoreQ], by decide,
    by decide, by decide⟩
  · intro n
    simp only [maxAllowed]
    split_ifs <;> rfl
  · intro n d
    unfold scoreQ fuzzyScore
    push_cast
    ring
  · intro t c ht hc hle
    simp only [bestSubstringDistance, if_neg ht, if_neg hc, if_pos hle]
  · intro t c d hd hcl
    have ht : t ≠ [] := by
      intro h
      subst h
      simp at hcl
    have hc : c ≠ [] := by
      intro h
      subst h
      rw [bestSubstringDistance, if_neg ht, if_pos rfl] at hd
      exact Option.noConfusion hd
    have hnle : ¬(t.length ≤ c.length) := by omega
    rw [bestSubstringDistance, if_neg ht, if_neg hc, if_neg hnle] at hd
    set ws := (List.range (t.length - c.length + 1)).map
      (fun i => levenshtein c ((t.drop i).take c.length)) with hws
    have hwsne : ws ≠ [] := by
      rw [hws]
      simp [List.range_eq_nil]
    obtain ⟨w0, ws', hcons⟩ := List.exists_cons_of_ne_nil hwsne
    rw [hcons, List.foldl_cons] at hd
    obtain ⟨m, heq, hmem, hle, hall⟩ := foldl_min_spec ws' w0
    rw [heq] at hd
    have hmd : m = d := by simpa using hd
    subst hmd
    have hmem' : m ∈ ws := by
      rw [hcons]
      rcases hmem with h | h
      · exact h ▸ List.mem_cons_self _ _
      · exact List.mem_cons_of_mem _ h
    have hall' : ∀ x ∈ ws, m ≤ x := by
      intro x hx
      rw [hcons] at hx
      rcases List.mem_cons.mp hx with h | h
      · exact h ▸ hle
      · exact hall x h
    constructor
    · rw [hws] at hmem'
      obtain ⟨i, hi, hfi⟩ := List.mem_map.mp hmem'
      have hilt := List.mem_range.mp hi
      exact ⟨i, by omega, hfi.symm⟩
    · intro i hi
      refine hall' _ ?_
      rw [hws]
      exact List.mem_map.mpr ⟨i, List.mem_range.mpr (by omega), rfl⟩
  · intro tn lang st e hne hinc
    rcases matchStep_cases tn lang st e with hcase |
      ⟨hcn, hdex, score, heq, hlt, hsc⟩
    · exact absurd hcase hne
    · rcases hsc with ⟨hi, _⟩ | ⟨_, d, hd, htol, hs⟩
      · rw [hinc] at hi
        exact Bool.noConfusion hi
      · exact ⟨d, hd, htol, by rw [heq, hs]⟩

/-- Witness for C4: the window-minimum characterisation and the whole-text
comparison at concrete strings. -/
theorem fuzzy_tolerance_spec_witness :
    ((∃ i ≤ (['a', 'b', 'c'] : List Char).length -
        (['b'] : List Char).length,
        (0 : Nat) = levenshtein ['b']
          (((['a', 'b', 'c'] : List Char).drop i).take
            (['b'] : List Char).length)) ∧
      ∀ i ≤ (['a', 'b', 'c'] : List Char).length -
        (['b'] : List Char).length,
        (0 : Nat) ≤ levenshtein ['b']
          (((['a', 'b', 'c'] : List Char).drop i).take
            (['b'] : List Char).length))
    ∧ bestSubstringDistance ['a'] ['b', 'c'] =
        some (levenshtein ['b', 'c'] ['a']) :=
  ⟨fuzzy_tolerance_spec.2.2.2.1 ['a', 'b', 'c'] ['b'] 0 (by decide)
      (by decide),
   fuzzy_tolerance_spec.2.2.1 ['a'] ['b', 'c'] (by decide) (by decide)
      (by decide)⟩

/-! ## C9: empty and whitespace-only input -/

/-- Nothing non-empty is a substring of the empty text. -/
theorem includes_nil_false (c : List Char) (hc : c ≠ []) :
    includes [] c = false := by
  cases h : includes ([] : List Char) c with
  | false => rfl
  | true =>
    have hlen := includes_length _ _ h
    simp only [List.length_nil, Nat.le_zero] at hlen
    exact absurd (List.eq_nil_of_length_eq_zero hlen) hc

/-- With an empty normalized text every candidate is rejected: no exact hit
is possible and the substring distance is infinite. -/
theorem matchStep_empty_text (lang : String)
    (st : Option (String × Int) × Int) (e : String × Int) :
    matchStep [] lang st e = st := by
  rcases matchStep_cases [] lang st e with h |
    ⟨hcn, hdex, score, heq, hlt, hsc⟩
  · exact h
  · exfalso
    rcases hsc with ⟨hi, _⟩ | ⟨_, d, hd, _, _⟩
    · rw [includes_nil_false _ hcn] at hi
      exact Bool.noConfusion hi
    · rw [bestSubstringDistance, if_pos rfl] at hd
      exact Option.noConfusion hd

/-- Lowercasing fixes whitespace characters. -/
theorem toLower_ws (c : Char) (h : isWs c = true) : Char.toLower c = c := by
  have hmem : c ∈ wsChars := List.mem_of_elem_eq_true h
  have hall : ∀ x ∈ wsChars, Char.toLower x = x := by decide
  exact hall c hmem

/-- Collapsing an all-whitespace non-empty run gives a single space. -/
theorem collapseWs_all_ws (l : List Char) (hne : l ≠ [])
    (h : l.all isWs = true) : collapseWs l = [' '] := by
  induction l with
  | nil => exact absurd rfl hne
  | cons c l ih =>
    have hc : isWs c = true := (List.all_cons .. ▸ h |> Bool.and_elim_left)
    have hl : l.all isWs = true := (List.all_cons .. ▸ h |> Bool.and_elim_right)
    rcases l with _ | ⟨c', l'⟩
    · simp [collapseWs, hc]
    · have := ih (by simp) hl
      simp only [collapseWs, List.foldr_cons] at this ⊢
      rw [this, hc]
      simp

/-- A whitespace-only raw text normalizes to the empty string in every
language mode. -/
theorem normalize_ws_only (text : String) (lang : String)
    (hws : text.toList.all isWs = true) :
    normalizeForMatching text lang = [] := by
  by_cases htext : text = ""
  · subst htext; rfl
  have hne : text.toList ≠ [] := by
    intro h
    apply htext
    cases text with
    | mk data =>
      simp only [String.toList] at h
      simp [h]
  rw [normalizeForMatching, if_neg htext]
  by_cases hlang : lang = "ja" ∨ lang = "ko"
  · rw [if_pos hlang]
    rw [List.filter_eq_nil_iff]
    intro c hc
    have := List.all_eq_true.mp hws c hc
    simp [this]
  · rw [if_neg hlang]
    have hmap : text.toList.map Char.toLower = text.toList := by
      have : ∀ c ∈ text.toList, Char.toLower c = c := by
        intro c hc
        exact toLower_ws c (List.all_eq_true.mp hws c hc)
      calc text.toList.map Char.toLower = text.toList.map id :=
            List.map_congr_left this
        _ = text.toList := List.map_id _
    rw [hmap, collapseWs_all_ws _ hne hws]
    rfl

/-- C9 counterexample: the whitespace-only raw text is NOT short-circuited:
the guard only fires for the empty string, so the candidate loop still
iterates over the (1-entry) table — the claimed "no scan performed" fails —
although the result is still null. -/
theorem whitespace_not_short_circuited :
    findBestPokemonMatch " " [("pikachu", 25)] "en" = none
    ∧ (" " : String) ≠ ""
    ∧ findBestPokemonMatchScanCount " " [("pikachu", 25)] = 1
    ∧ findBestPokemonMatchScanCount " " [("pikachu", 25)] ≠ 0 := by
  decide

/-- C9 (amended): empty raw text returns null having inspected no table
entry; an empty name table returns null (there is nothing to scan);
whitespace-only raw text also returns null, but NOT via the short-circuit:
the guard does not fire and the loop visits every table entry, each rejected
against the empty normalized text (no substring hit, infinite substring
distance). -/
theorem emptyInput_policy :
    (∀ (tbl : List (String × Int)) (lang : String),
      findBestPokemonMatch "" tbl lang = none ∧
      findBestPokemonMatchScanCount "" tbl = 0)
    ∧ (∀ (text : String) (lang : String),
        findBestPokemonMatch text [] lang = none)
    ∧ (∀ (text : String) (lang : String) (tbl : List (String × Int)),
        text ≠ "" → text.toList.all isWs = true →
        findBestPokemonMatch text tbl lang = none ∧
        findBestPokemonMatchScanCount text tbl = tbl.length) := by
  refine ⟨?_, ?_, ?_⟩
  · intro tbl lang
    exact ⟨by rw [findBestPokemonMatch, if_pos rfl],
      by rw [findBestPokemonMatchScanCount, if_pos rfl]⟩
  · intro text lang
    by_cases h : text = "" <;> simp [findBestPokemonMatch, h]
  · intro text lang tbl htext hws
    constructor
    · rw [findBestPokemonMatch, if_neg htext]
      simp only []
      rw [normalize_ws_only text lang hws]
      have hfold : ∀ (l : List (String × Int))
          (st : Option (String × Int) × Int),
          l.foldl (matchStep [] lang) st = st := by
        intro l
        induction l with
        | nil => intro st; rfl
        | cons e l ih =>
          intro st
          rw [List.foldl_cons, matchStep_empty_text, ih]
      rw [hfold]
    · rw [findBestPokemonMatchScanCount, if_neg htext]

/-- Witness for C9 at a whitespace-only text and a one-entry table. -/
theorem emptyInput_policy_witness :
    findBestPokemonMatch " " [("pikachu", 25)] "ja" = none ∧
    findBestPokemonMatchScanCount " " [("pikachu", 25)] =
      ([("pikachu", 25)] : List (String × Int)).length :=
  emptyInput_policy.2.2 " " "ja" [("pikachu", 25)] (by decide) (by decide)

end Masterdex
